import Mathlib

/-!
Verification of the order-statistic histogram (`hist-bst.c`) and the
sliding-window 2D median filter (`omp-median-filter-2D-sparse.c`) of the
median-filter-PDP2025 repository.

The C data structures are shallowly embedded as follows:
* a `HistNode*` pointer structure becomes the inductive type `HTree`;
  `NULL` is `HTree.nil`, and a node carries its `key`, `count` and the
  stored (augmentation) field `counts`.  Parent pointers are not stored:
  the bottom-up `update_counts_to_root` walk is expressed by the
  recursive functions returning a `live` flag meaning "the upward repair
  loop is still running at this position".
* C `int` fields and arguments become `Int`; `data_t` (an unsigned
  fixed-width sample type) becomes `Nat`.
* the C `assert` statements that guard caller contracts are modelled by
  `Except HErr` wrappers around the total tree-transforming functions.
-/

set_option maxRecDepth 10000

namespace MedianFilterPDP

/-- Error kinds of the core (the C code signals these with `assert`). -/
inductive HErr where
  | invalidArgument : HErr
  | underflow : HErr
  | emptyStructure : HErr
deriving DecidableEq, Repr

/-- The BST of `hist-bst.c`: each node stores a sample value `key`, the
number `count` of occurrences of `key`, and the augmentation field
`counts` = number of occurrences of all keys in the subtree (maintained
incrementally, exactly as the C code does). -/
inductive HTree where
  | nil : HTree
  | node (key : Nat) (count : Int) (counts : Int) (l r : HTree) : HTree
deriving DecidableEq, Repr

namespace HTree

/-- Stored `counts` field of the root node (`0` for the empty tree,
matching the C convention that a missing child contributes 0). -/
def countsOf : HTree → Int
  | nil => 0
  | node _ _ cs _ _ => cs

/-- The mutation performed by C `update_counts`: recompute the root
node's `counts` from its `count` and the children's stored `counts`. -/
def update_counts : HTree → HTree
  | nil => nil
  | node k c _ l r => node k c (c + countsOf l + countsOf r) l r

/-- The return value of C `update_counts`: 1 iff the recomputed `counts`
differs from the stored one. -/
def counts_changed : HTree → Bool
  | nil => false
  | node _ c cs l r => decide (cs ≠ c + countsOf l + countsOf r)

/-- One step of `update_counts_to_root`: if the upward repair loop is
still `live` at this node, recompute its `counts` and report whether the
loop keeps ascending; otherwise leave the node untouched. -/
def repair (t : HTree) (live : Bool) : HTree × Bool :=
  if live then (update_counts t, counts_changed t) else (t, false)

/-- C `hist_insert_rec`: insert `c` additional occurrences of key `k`,
calling `update_counts` at every node along the search path (the fresh
node is created with `counts = -1` and immediately repaired, as in the
C code). -/
def hist_insert_rec : HTree → Nat → Int → HTree
  | nil, k, c => update_counts (node k c (-1) nil nil)
  | node key cnt cs l r, k, c =>
      if k < key then
        update_counts (node key cnt cs (hist_insert_rec l k c) r)
      else if key < k then
        update_counts (node key cnt cs l (hist_insert_rec r k c))
      else
        update_counts (node key (cnt + c) cs l r)

/-- Body of C `hist_insert` after its `assert(c>=0)`: insert only when
`c > 0`. -/
def hist_insert_fn (H : HTree) (k : Nat) (c : Int) : HTree :=
  if 0 < c then hist_insert_rec H k c else H

/-- C `hist_insert` with its `assert(c>=0)` modelled as an
`InvalidArgument` error. -/
def hist_insert (H : HTree) (k : Nat) (c : Int) : Except HErr HTree :=
  if c < 0 then .error .invalidArgument else .ok (hist_insert_fn H k c)

/-- C `hist_lookup`, returning the `count` field of the node holding
key `v` (if any). -/
def lookupCount : HTree → Nat → Option Int
  | nil, _ => none
  | node key cnt _ l r, v =>
      if v < key then lookupCount l v
      else if key < v then lookupCount r v
      else some cnt

/-- C `hist_get`: occurrence count of `k`, or 0 if absent. -/
def hist_get (H : HTree) (k : Nat) : Int :=
  match lookupCount H k with
  | none => 0
  | some c => c

/-- Result of splicing the minimum node out of a subtree
(C: `hist_minimum` + `hist_transplant(min, min->right)`).  `mcounts` is
the stored `counts` field the minimum node had at its old position, and
`live` tells whether the `update_counts_to_root` walk started at the
minimum's old parent is still ascending when it leaves this subtree. -/
structure MinSplice where
  mkey : Nat
  mcount : Int
  mcounts : Int
  rest : HTree
  live : Bool
deriving Repr

/-- Splice the leftmost node out of a subtree, repairing `counts` along
the left spine exactly as `update_counts_to_root(min_of_right->parent)`
does (with its early-termination test). -/
def extractMin : HTree → MinSplice
  | nil => ⟨0, 0, 0, nil, false⟩
  | node k c cs nil r => ⟨k, c, cs, r, true⟩
  | node k c cs (node lk lc lcs ll lr) r =>
      let m := extractMin (node lk lc lcs ll lr)
      let p := repair (node k c cs m.rest r) m.live
      ⟨m.mkey, m.mcount, m.mcounts, p.1, p.2⟩

/-- Core of C `hist_delete` after the lookup succeeded: subtract `c`
from the found node's `count`; if the count stays positive repair
`counts` from that node upward, otherwise splice the node out (child
promotion, or in-order-successor promotion for two children) and repair
from the node the C code picks as `update_from`.  The `atRoot` flag
distinguishes the `n->parent == NULL` cases of the C code.  The returned
`Bool` reports whether the `update_counts_to_root` walk is still
ascending (its early-termination short-circuit). -/
def delete_go : HTree → Nat → Int → Bool → HTree × Bool
  | nil, _, _, _ => (nil, false)
  | node k cnt cs l r, v, c, atRoot =>
      if v < k then
        let p := delete_go l v c false
        repair (node k cnt cs p.1 r) p.2
      else if k < v then
        let p := delete_go r v c false
        repair (node k cnt cs l p.1) p.2
      else if 0 < cnt - c then
        repair (node k (cnt - c) cs l r) true
      else
        match l, r with
        | nil, _ =>
            if atRoot then (update_counts r, false) else (r, true)
        | node lk lc lcs ll lr, nil =>
            if atRoot then (update_counts (node lk lc lcs ll lr), false)
            else (node lk lc lcs ll lr, true)
        | node lk lc lcs ll lr, node rk rc rcs nil rr =>
            repair (node rk rc rcs (node lk lc lcs ll lr) rr) true
        | node lk lc lcs ll lr, node rk rc rcs (node a b cc d e) rr =>
            let m := extractMin (node rk rc rcs (node a b cc d e) rr)
            repair (node m.mkey m.mcount m.mcounts
                      (node lk lc lcs ll lr) m.rest) m.live

/-- C `hist_delete` with asserts disabled (`NDEBUG` behaviour): a
missing key is silently ignored. -/
def hist_delete_fn (H : HTree) (v : Nat) (c : Int) : HTree :=
  match lookupCount H v with
  | none => H
  | some _ => (delete_go H v c true).1

/-- C `hist_delete` with its `assert(c>=0)` and `assert(n->count>=0)`
modelled as errors.  Note that (exactly as in the C code) a key that is
absent from the tree is silently ignored, whatever `c` is. -/
def hist_delete (H : HTree) (v : Nat) (c : Int) : Except HErr HTree :=
  if c < 0 then .error .invalidArgument
  else
    match lookupCount H v with
    | none => .ok H
    | some cnt =>
        if cnt < c then .error .underflow
        else .ok ((delete_go H v c true).1)

/-- C `hist_is_empty`: no root, or root's stored `counts` is 0. -/
def hist_is_empty : HTree → Bool
  | nil => true
  | node _ _ cs _ _ => cs == 0

/-- C `hist_clear`: free all nodes and reset the root pointer. -/
def hist_clear (_H : HTree) : HTree := nil

/-- The descent loop of C `hist_median`, driven by the stored `counts`
fields.  Reaching `NULL` (which would trip the C `assert(n != NULL)`)
yields `none`. -/
def medianLoop : HTree → Int → Option Nat
  | nil, _ => none
  | node k c _ l r, target =>
      if target < countsOf l then medianLoop l target
      else if target < countsOf l + c then some k
      else medianLoop r (target - countsOf l - c)

/-- C `hist_median`: `assert(n != NULL)` on the root is modelled as an
`EmptyStructure` error; the target rank is `counts / 2` of the root. -/
def hist_median (H : HTree) : Except HErr Nat :=
  match H with
  | nil => .error .emptyStructure
  | node k c cs l r =>
      match medianLoop (node k c cs l r) (cs.tdiv 2) with
      | some x => .ok x
      | none => .error .emptyStructure

/-- C `hist_median` as used by the filter (asserts always succeed
there); an error is mapped to 0. -/
def hist_median_fn (H : HTree) : Nat :=
  match hist_median H with
  | .ok x => x
  | .error _ => 0

/-- C `hist_sub_rec`: delete each `(key, count)` pair of the second tree
from the first, in pre-order. -/
def hist_sub_rec (H : HTree) : HTree → Except HErr HTree
  | nil => .ok H
  | node k c _ l r => do
      let H1 ← hist_delete H k c
      let H2 ← hist_sub_rec H1 l
      hist_sub_rec H2 r

/-- C `hist_sub`. -/
def hist_sub (H1 H2 : HTree) : Except HErr HTree :=
  hist_sub_rec H1 H2

end HTree

export HTree (countsOf hist_insert_rec hist_insert_fn hist_insert hist_get
  hist_delete_fn hist_delete hist_is_empty hist_clear hist_median
  hist_median_fn hist_sub lookupCount)

/-! ## The sliding-window filter (`omp-median-filter-2D-sparse.c`) -/

/-- Clamping of one coordinate, from C `IDX` with `REPLICATE` defined:
`i = (i<0 ? 0 : (i>=height ? height-1 : i))`. -/
def clampIdx (i : Int) (n : Nat) : Int :=
  if i < 0 then 0 else if (n : Int) ≤ i then (n : Int) - 1 else i

/-- C `IDX`: clamp both coordinates (border replication) and flatten
row-major. -/
def IDX (i j : Int) (height width : Nat) : Int :=
  clampIdx i height * width + clampIdx j width

/-- The window offsets `-radius, ..., radius` iterated by the C `for`
loops. -/
def offs (radius : Nat) : List Int :=
  (List.range (2 * radius + 1)).map (fun t : Nat => (t : Int) - (radius : Int))

/-- C `fill_histogram`: insert one occurrence of every sample in the
window of radius `radius` centered at `(i, j)` (row-major loop order,
border replication). -/
def fill_histogram (hist : HTree) (inb : Int → Nat) (i j : Int)
    (radius width height : Nat) : HTree :=
  (offs radius).foldl
    (fun h di =>
      (offs radius).foldl
        (fun h dj => hist_insert_fn h (inb (IDX (i + di) (j + dj) height width)) 1)
        h)
    hist

/-- C `shift_histogram`: for each window row, delete the sample leaving
at column `j - radius` and insert the sample entering at column
`j + radius + 1`, both with the same clamping as the fill. -/
def shift_histogram (hist : HTree) (inb : Int → Nat) (i j : Int)
    (radius width height : Nat) : HTree :=
  (offs radius).foldl
    (fun h di =>
      hist_insert_fn
        (hist_delete_fn h (inb (IDX (i + di) (j - radius) height width)) 1)
        (inb (IDX (i + di) (j + radius + 1) height width)) 1)
    hist

/-- The per-row loop of `median_filter_2D_sparse_byrow`: emit the median
at each column, shifting the histogram between columns (never after the
last column).  Returns the emitted row and the final histogram state
(which the C worker carries, cleared, into its next row). -/
def row_loop (inb : Int → Nat) (i : Int) (radius width height : Nat) :
    Nat → Int → HTree → List Nat × HTree
  | 0, _, h => ([], h)
  | Nat.succ n, j, h =>
      if n = 0 then ([hist_median_fn h], h)
      else
        let res := row_loop inb i radius width height n (j + 1)
          (shift_histogram h inb i j radius width height)
        (hist_median_fn h :: res.1, res.2)

/-- One row of the filter, from a freshly filled histogram. -/
def filter_row (inb : Int → Nat) (i : Int) (radius width height : Nat) :
    List Nat :=
  (row_loop inb i radius width height width 0
    (fill_histogram HTree.nil inb i 0 radius width height)).1

/-- The work done by one OpenMP worker on its assigned rows: the single
private histogram is cleared at the start of every row, refilled for
the window at column 0, and slid across the row. -/
def worker_run (inb : Int → Nat) (radius width height : Nat) :
    List Nat → HTree → List (List Nat)
  | [], _ => []
  | i :: rest, h =>
      let res := row_loop inb (i : Int) radius width height width 0
        (fill_histogram (hist_clear h) inb (i : Int) 0 radius width height)
      res.1 :: worker_run inb radius width height rest res.2

/-- C `median_filter_2D_sparse_byrow` (its deterministic input/output
function: all rows, in order, each produced as `worker_run` produces
it). -/
def median_filter_2D_sparse_byrow (inb : Int → Nat)
    (width height radius : Nat) : List (List Nat) :=
  worker_run inb radius width height (List.range height) HTree.nil

/-- The multiset-expanded contents of the window centered at `(i, j)`
(same clamped positions as `fill_histogram` visits). -/
def window (inb : Int → Nat) (i j : Int) (radius width height : Nat) :
    List Nat :=
  (offs radius).flatMap
    (fun di => (offs radius).map
      (fun dj => inb (IDX (i + di) (j + dj) height width)))

/-- The specification value of one output pixel: the element at 0-based
rank `size / 2` of the fully sorted window contents (upper-middle
tie-break). -/
def windowMedian (inb : Int → Nat) (i j : Int) (radius width height : Nat) :
    Nat :=
  ((window inb i j radius width height).insertionSort (· ≤ ·)).getD
    ((window inb i j radius width height).length / 2) 0

/-! ## Abstraction: in-order multiplicity expansion and the invariant -/

namespace HTree

/-- In-order, multiplicity-expanded contents of the tree: each key
repeated `count` times.  For trees satisfying the invariant this list
is sorted. -/
def toList : HTree → List Nat
  | nil => []
  | node k c _ l r => toList l ++ List.replicate c.toNat k ++ toList r

/-- The histogram contents as a multiset. -/
def toMS (t : HTree) : Multiset Nat := (toList t : Multiset Nat)

/-- The data-structure invariant of `hist-bst.c` (checked by
`hist_check_rec`): every node has a positive `count`, a consistent
stored `counts` (its own `count` plus the children's stored `counts`),
and the strict BST ordering the insertion procedure establishes. -/
def Valid : HTree → Prop
  | nil => True
  | node k c cs l r =>
      0 < c ∧ cs = c + countsOf l + countsOf r ∧
      (∀ x ∈ toList l, x < k) ∧ (∀ x ∈ toList r, k < x) ∧
      Valid l ∧ Valid r

instance Valid.dec : (t : HTree) → Decidable (Valid t)
  | nil => Decidable.isTrue trivial
  | node k c cs l r =>
      letI := Valid.dec l
      letI := Valid.dec r
      decidable_of_iff
        (0 < c ∧ cs = c + countsOf l + countsOf r ∧
          (∀ x ∈ toList l, x < k) ∧ (∀ x ∈ toList r, k < x) ∧
          Valid l ∧ Valid r) Iff.rfl

/-- The invariant exactly as the specification phrases it: for every
node, `subtreeCount == count + subtreeCount(left) + subtreeCount(right)`
and the BST ordering relative to the parent (left-subtree keys `≤ key`,
right-subtree keys `> key`). -/
def WF : HTree → Prop
  | nil => True
  | node k c cs l r =>
      cs = c + countsOf l + countsOf r ∧
      (∀ x ∈ toList l, x ≤ k) ∧ (∀ x ∈ toList r, k < x) ∧
      WF l ∧ WF r

end HTree

export HTree (toList toMS Valid WF)

/-! ## Operation sequences (public API traces) -/

/-- One public histogram operation. -/
inductive HOp where
  | ins (k : Nat) (c : Int) : HOp
  | del (k : Nat) (c : Int) : HOp
deriving DecidableEq, Repr

/-- Execute one public operation; a signalled error (a tripped C
`assert`) leaves the structure unchanged. -/
def execOp (t : HTree) : HOp → HTree
  | .ins k c =>
      match hist_insert t k c with
      | .ok t' => t'
      | .error _ => t
  | .del k c =>
      match hist_delete t k c with
      | .ok t' => t'
      | .error _ => t

/-- Execute a sequence of public operations. -/
def runOps (t : HTree) : List HOp → HTree
  | [] => t
  | op :: rest => runOps (execOp t op) rest

/-- Stepwise preconditions of a trace: inserts need `c ≥ 0`, deletes
need `c ≥ 0` and at least `c` recorded occurrences. -/
def opsOKb (t : HTree) : List HOp → Bool
  | [] => true
  | .ins k c :: rest => decide (0 ≤ c) && opsOKb (execOp t (.ins k c)) rest
  | .del k c :: rest =>
      (decide (0 ≤ c) && decide (c ≤ hist_get t k)) && opsOKb (execOp t (.del k c)) rest

/-- Operations restricted to a single key `k`: `(true, c)` is
`insert(k, c)`, `(false, c)` is `delete(k, c)`. -/
def kOps (k : Nat) (l : List (Bool × Int)) : List HOp :=
  l.map (fun p => if p.1 then HOp.ins k p.2 else HOp.del k p.2)

/-- Sum of inserted multiplicities in a single-key operation list. -/
def insSum : List (Bool × Int) → Int
  | [] => 0
  | (true, c) :: rest => c + insSum rest
  | (false, _) :: rest => insSum rest

/-- Sum of deleted multiplicities in a single-key operation list. -/
def delSum : List (Bool × Int) → Int
  | [] => 0
  | (true, _) :: rest => delSum rest
  | (false, c) :: rest => c + delSum rest

/-- The 5×5 row-major buffer holding 0..24 used by the specification's
end-to-end test. -/
def inbC3 : Int → Nat := fun t => t.toNat

/-! # Theorems -/

namespace HTree

theorem WF_of_valid : ∀ t : HTree, Valid t → WF t
  | nil, _ => trivial
  | node k c cs l r, h => by
      simp only [Valid] at h
      obtain ⟨-, hcs, hl, hr, hvl, hvr⟩ := h
      exact ⟨hcs, fun x hx => le_of_lt (hl x hx), hr,
        WF_of_valid l hvl, WF_of_valid r hvr⟩

/-- Sortedness of constant lists. -/
theorem sorted_replicate (n : ℕ) (a : ℕ) :
    (List.replicate n a).Sorted (· ≤ ·) := by
  induction n with
  | zero => simp
  | succ m ih =>
      rw [List.replicate_succ, List.sorted_cons]
      exact ⟨fun b hb => by simp [List.mem_replicate] at hb; omega, ih⟩

/-- On valid trees the stored `counts` field is the number of stored
occurrences. -/
theorem countsOf_eq_length : ∀ t : HTree, Valid t → countsOf t = ((toList t).length : Int)
  | nil, _ => by simp [countsOf, toList]
  | node k c cs l r, h => by
      simp only [Valid] at h
      obtain ⟨hc, hcs, -, -, hvl, hvr⟩ := h
      have ihl := countsOf_eq_length l hvl
      have ihr := countsOf_eq_length r hvr
      simp only [countsOf, toList, List.length_append, List.length_replicate]
      rw [hcs, ihl, ihr]
      push_cast
      omega

/-- The in-order expansion of a valid tree is sorted. -/
theorem sorted_toList : ∀ t : HTree, Valid t → (toList t).Sorted (· ≤ ·)
  | nil, _ => by simp [toList]
  | node k c cs l r, h => by
      simp only [Valid] at h
      obtain ⟨-, -, hl, hr, hvl, hvr⟩ := h
      have ihl := sorted_toList l hvl
      have ihr := sorted_toList r hvr
      simp only [toList]
      rw [List.Sorted, List.pairwise_append]
      refine ⟨?_, ihr, ?_⟩
      · rw [List.pairwise_append]
        refine ⟨ihl, sorted_replicate _ _, ?_⟩
        intro a ha b hb
        rw [List.mem_replicate] at hb
        exact le_of_lt (hb.2 ▸ hl a ha)
      · intro a ha b hb
        rcases List.mem_append.1 ha with ha | ha
        · exact le_of_lt (lt_trans (hl a ha) (hr b hb))
        · rw [List.mem_replicate] at ha
          exact le_of_lt (ha.2 ▸ hr b hb)

/-- Multiplicity-level effect of `hist_insert_rec`: it adds `c`
occurrences of `k`. -/
theorem toMS_insert_rec : ∀ (t : HTree) (k : Nat) (c : Int), Valid t → 0 < c →
    toMS (hist_insert_rec t k c) = Multiset.replicate c.toNat k + toMS t
  | nil, k, c, _, _ => by
      simp [toMS, toList, hist_insert_rec, update_counts, Multiset.coe_replicate]
  | node key cnt cs l r, k, c, hv, hc => by
      simp only [Valid] at hv
      obtain ⟨hcnt, -, -, -, hvl, hvr⟩ := hv
      by_cases h1 : k < key
      · have ih := toMS_insert_rec l k c hvl hc
        simp only [hist_insert_rec, if_pos h1, update_counts, toMS, toList,
          ← Multiset.coe_add] at *
        rw [ih]
        abel
      · by_cases h2 : key < k
        · have ih := toMS_insert_rec r k c hvr hc
          simp only [hist_insert_rec, if_neg h1, if_pos h2, update_counts, toMS, toList,
            ← Multiset.coe_add] at *
          rw [ih]
          abel
        · have hk : k = key := by omega
          subst hk
          have htn : (cnt + c).toNat = cnt.toNat + c.toNat :=
            Int.toNat_add (le_of_lt hcnt) (le_of_lt hc)
          simp only [hist_insert_rec, if_neg h1, if_neg h2, update_counts, toMS, toList,
            ← Multiset.coe_add, Multiset.coe_replicate, htn, Multiset.replicate_add]
          abel

/-- Membership after insertion. -/
theorem mem_toList_insert_rec (t : HTree) (k : Nat) (c : Int) (hv : Valid t)
    (hc : 0 < c) (x : Nat) :
    x ∈ toList (hist_insert_rec t k c) ↔ x = k ∨ x ∈ toList t := by
  have h := toMS_insert_rec t k c hv hc
  have hx : x ∈ toMS (hist_insert_rec t k c) ↔ x ∈ toList (hist_insert_rec t k c) :=
    Multiset.mem_coe
  rw [← hx, h, Multiset.mem_add, Multiset.mem_replicate]
  have : c.toNat ≠ 0 := by omega
  simp [toMS, this]

/-- `hist_insert_rec` preserves the invariant. -/
theorem valid_insert_rec : ∀ (t : HTree) (k : Nat) (c : Int), Valid t → 0 < c →
    Valid (hist_insert_rec t k c)
  | nil, k, c, _, hc => by
      simp [hist_insert_rec, update_counts, Valid, countsOf, toList, hc]
  | node key cnt cs l r, k, c, hv, hc => by
      simp only [Valid] at hv
      obtain ⟨hcnt, hcs, hl, hr, hvl, hvr⟩ := hv
      by_cases h1 : k < key
      · have ih := valid_insert_rec l k c hvl hc
        simp only [hist_insert_rec, if_pos h1, update_counts, Valid, countsOf]
        refine ⟨hcnt, by trivial, ?_, hr, ih, hvr⟩
        intro x hx
        rcases (mem_toList_insert_rec l k c hvl hc x).1 hx with h | h
        · exact h ▸ h1
        · exact hl x h
      · by_cases h2 : key < k
        · have ih := valid_insert_rec r k c hvr hc
          simp only [hist_insert_rec, if_neg h1, if_pos h2, update_counts, Valid, countsOf]
          refine ⟨hcnt, by trivial, hl, ?_, hvl, ih⟩
          intro x hx
          rcases (mem_toList_insert_rec r k c hvr hc x).1 hx with h | h
          · exact h ▸ h2
          · exact hr x h
        · have hk : k = key := by omega
          subst hk
          simp only [hist_insert_rec, if_neg h1, if_neg h2, update_counts, Valid, countsOf]
          exact ⟨by omega, by trivial, hl, hr, hvl, hvr⟩

/-- Multiplicity-level effect of public insert (`c ≥ 0`). -/
theorem toMS_insert_fn (t : HTree) (k : Nat) (c : Int) (hv : Valid t) (hc : 0 ≤ c) :
    toMS (hist_insert_fn t k c) = Multiset.replicate c.toNat k + toMS t := by
  by_cases h : 0 < c
  · rw [hist_insert_fn, if_pos h]
    exact toMS_insert_rec t k c hv h
  · have : c = 0 := le_antisymm (not_lt.1 h) hc
    subst this
    simp [hist_insert_fn]

/-- Public insert preserves the invariant (`c ≥ 0`). -/
theorem valid_insert_fn (t : HTree) (k : Nat) (c : Int) (hv : Valid t) (_hc : 0 ≤ c) :
    Valid (hist_insert_fn t k c) := by
  by_cases h : 0 < c
  · rw [hist_insert_fn, if_pos h]
    exact valid_insert_rec t k c hv h
  · rw [hist_insert_fn, if_neg h]
    exact hv

/-- On valid trees `hist_get` returns the multiplicity of the key in
the expanded contents. -/
theorem hist_get_eq_count : ∀ (t : HTree), Valid t → ∀ k : Nat,
    hist_get t k = ((toList t).count k : Int)
  | nil, _, k => by simp [hist_get, lookupCount, toList]
  | node key cnt cs l r, hv, k => by
      simp only [Valid] at hv
      obtain ⟨hcnt, -, hl, hr, hvl, hvr⟩ := hv
      by_cases h1 : k < key
      · have ih := hist_get_eq_count l hvl k
        have hnr : k ∉ toList r := fun h => absurd (hr k h) (by omega)
        have hrep : (key == k) = false := by simp; omega
        simp [hist_get, lookupCount, if_pos h1, toList, List.count_append,
          List.count_replicate, hrep, List.count_eq_zero.2 hnr] at *
        exact ih
      · by_cases h2 : key < k
        · have ih := hist_get_eq_count r hvr k
          have hnl : k ∉ toList l := fun h => absurd (hl k h) (by omega)
          have hrep : (key == k) = false := by simp; omega
          simp [hist_get, lookupCount, if_neg h1, if_pos h2, toList, List.count_append,
            List.count_replicate, hrep, List.count_eq_zero.2 hnl] at *
          exact ih
        · have hk : k = key := by omega
          subst hk
          have hnl : k ∉ toList l := fun h => absurd (hl k h) (by omega)
          have hnr : k ∉ toList r := fun h => absurd (hr k h) (by omega)
          simp [hist_get, lookupCount, if_neg h1, toList, List.count_append,
            List.count_replicate, List.count_eq_zero.2 hnl, List.count_eq_zero.2 hnr]
          omega

/-- `hist_get` is never negative on valid trees. -/
theorem hist_get_nonneg (t : HTree) (hv : Valid t) (k : Nat) : 0 ≤ hist_get t k := by
  rw [hist_get_eq_count t hv k]
  exact Int.ofNat_nonneg _

/-- `hist_get` only depends on the abstract contents. -/
theorem hist_get_congr (t t' : HTree) (hv : Valid t) (hv' : Valid t')
    (h : toMS t = toMS t') (k : Nat) : hist_get t k = hist_get t' k := by
  rw [hist_get_eq_count t hv k, hist_get_eq_count t' hv' k]
  have := congrArg (Multiset.count k) h
  simpa [toMS] using this

theorem getD_replicate : ∀ (m n : ℕ) (a d : Nat), n < m →
    (List.replicate m a).getD n d = a
  | 0, n, _, _, h => absurd h (Nat.not_lt_zero n)
  | _ + 1, 0, _, _, _ => rfl
  | m + 1, n + 1, a, d, h => by
      rw [List.replicate_succ]
      show (List.replicate m a).getD n d = a
      exact getD_replicate m n a d (by omega)

/-- The descent of `hist_median` finds the element of rank `target` in
the sorted expanded contents, for valid trees. -/
theorem medianLoop_spec : ∀ (t : HTree) (target : Int), Valid t →
    0 ≤ target → target < countsOf t →
    medianLoop t target = some ((toList t).getD target.toNat 0)
  | nil, target, _, h0, hlt => by
      simp only [countsOf] at hlt
      omega
  | node k c cs l r, target, hv, h0, hlt => by
      simp only [Valid] at hv
      obtain ⟨hc, hcs, -, -, hvl, hvr⟩ := hv
      have hlenl := countsOf_eq_length l hvl
      have hlenr := countsOf_eq_length r hvr
      simp only [countsOf] at hlt
      simp only [medianLoop, toList]
      by_cases h1 : target < countsOf l
      · rw [if_pos h1, medianLoop_spec l target hvl h0 h1]
        have hn : target.toNat < (toList l).length := by omega
        rw [List.getD_append _ _ _ _ (by simp; omega),
          List.getD_append _ _ _ _ hn]
      · by_cases h2 : target < countsOf l + c
        · rw [if_neg h1, if_pos h2]
          have hlen : (toList l).length ≤ target.toNat := by omega
          rw [List.getD_append _ _ _ _ (by simp; omega),
            List.getD_append_right _ _ _ _ hlen,
            getD_replicate _ _ _ _ (by omega)]
        · rw [if_neg h1, if_neg h2,
            medianLoop_spec r (target - countsOf l - c) hvr (by omega) (by omega)]
          have hlen : (toList l ++ List.replicate c.toNat k).length ≤ target.toNat := by
            simp
            omega
          rw [List.getD_append_right _ _ _ _ hlen]
          have hidx : (target - countsOf l - c).toNat
              = target.toNat - (toList l ++ List.replicate c.toNat k).length := by
            simp
            omega
          rw [hidx]

/-- `hist_median` on a valid non-empty tree returns the element at
0-indexed rank `totalCount / 2` of the sorted expanded contents. -/
theorem hist_median_spec (t : HTree) (hv : Valid t) (hne : t ≠ nil) :
    hist_median t = .ok ((toList t).getD ((toList t).length / 2) 0) := by
  match t, hne with
  | node k c cs l r, _ =>
    have hv' := hv
    simp only [Valid] at hv'
    obtain ⟨hc, hcs, -, -, hvl, hvr⟩ := hv'
    have hlen := countsOf_eq_length (node k c cs l r) hv
    simp only [countsOf] at hlen
    have hpos : 0 < (toList (node k c cs l r)).length := by
      simp only [toList, List.length_append, List.length_replicate]
      omega
    have htd : cs.tdiv 2 = (((toList (node k c cs l r)).length / 2 : ℕ) : Int) := by
      rw [hlen]
      exact_mod_cast (Int.ofNat_tdiv (toList (node k c cs l r)).length 2).symm
    have h0 : 0 ≤ cs.tdiv 2 := by
      rw [htd]
      exact Int.ofNat_nonneg _
    have hbound : cs.tdiv 2 < countsOf (node k c cs l r) := by
      simp only [countsOf]
      rw [htd, hlen]
      exact_mod_cast Nat.div_lt_self hpos (by norm_num)
    have hml := medianLoop_spec (node k c cs l r) (cs.tdiv 2) hv h0 hbound
    simp only [hist_median]
    rw [hml, htd, Int.toNat_natCast]

theorem toList_update_counts (t : HTree) : toList (update_counts t) = toList t := by
  cases t <;> rfl

theorem countsOf_nonneg (t : HTree) (hv : Valid t) : 0 ≤ countsOf t := by
  rw [countsOf_eq_length t hv]
  exact Int.ofNat_nonneg _

theorem countsOf_node_pos (k : Nat) (c cs : Int) (l r : HTree)
    (hv : Valid (node k c cs l r)) : 0 < countsOf (node k c cs l r) := by
  have h := countsOf_eq_length _ hv
  have hv' := hv
  simp only [Valid] at hv'
  rw [h]
  simp only [toList, List.length_append, List.length_replicate]
  have := hv'.1
  push_cast
  omega

/-- On a valid tree `update_counts` is the identity (the stored field
is already correct). -/
theorem update_counts_of_valid : ∀ t : HTree, Valid t → update_counts t = t
  | nil, _ => rfl
  | node k c cs l r, hv => by
      simp only [Valid] at hv
      rw [update_counts, ← hv.2.1]

theorem mem_of_toMS_split (t t' : HTree) (X : Multiset Nat)
    (h : toMS t = X + toMS t') : ∀ x, x ∈ toList t' → x ∈ toList t := by
  intro x hx
  have h1 : x ∈ toMS t := by
    rw [h]
    exact Multiset.mem_add.2 (Or.inr (Multiset.mem_coe.2 hx))
  exact Multiset.mem_coe.1 h1

/-- Everything the minimum-splice (`hist_minimum` plus
`hist_transplant(min, min->right)` plus the
`update_counts_to_root(min->parent)` prefix running inside the subtree)
guarantees on a valid non-empty subtree. -/
theorem extractMin_spec : ∀ t : HTree, Valid t → t ≠ nil →
    (extractMin t).live = true ∧
    Valid (extractMin t).rest ∧
    0 < (extractMin t).mcount ∧
    toList t = List.replicate (extractMin t).mcount.toNat (extractMin t).mkey
      ++ toList (extractMin t).rest ∧
    countsOf (extractMin t).rest = countsOf t - (extractMin t).mcount ∧
    (∀ x ∈ toList (extractMin t).rest, (extractMin t).mkey < x) ∧
    (extractMin t).mkey ∈ toList t ∧
    (extractMin t).mcounts ≤ countsOf t
  | node k c cs nil r, hv, _ => by
      have hv' := hv
      simp only [Valid] at hv'
      obtain ⟨hc, hcs, -, hr, -, hvr⟩ := hv'
      simp only [extractMin, toList, countsOf] at *
      refine ⟨by trivial, hvr, hc, by simp, by omega, hr, ?_, le_refl _⟩
      have : c.toNat ≠ 0 := by omega
      simp [List.mem_replicate, this]
  | node k c cs (node lk lc lcs ll lr) r, hv, _ => by
      have hv' := hv
      simp only [Valid] at hv'
      obtain ⟨hc, hcs, hl, hr, hvl, hvr⟩ := hv'
      obtain ⟨hlive, hvrest, hmc, hsplit, hcnt, hgt, hmem, hbound⟩ :=
        extractMin_spec (node lk lc lcs ll lr) hvl (by simp)
      have hclpos := countsOf_node_pos lk lc lcs ll lr hvl
      have hcrnn := countsOf_nonneg r hvr
      have hrestmem : ∀ x ∈ toList (extractMin (node lk lc lcs ll lr)).rest,
          x ∈ toList (node lk lc lcs ll lr) := by
        intro x hx
        rw [hsplit]
        exact List.mem_append.2 (Or.inr hx)
      simp only [extractMin, hlive, repair, if_pos, if_true]
      refine ⟨?_, ?_, hmc, ?_, ?_, ?_, ?_, ?_⟩
      · -- the repair loop keeps ascending: counts really changed
        simp only [counts_changed, decide_eq_true_eq]
        omega
      · -- validity of the repaired node
        simp only [update_counts, Valid]
        refine ⟨hc, by trivial, ?_, hr, hvrest, hvr⟩
        intro x hx
        exact hl x (hrestmem x hx)
      · -- list-level splice equation
        have h1 : toList (node k c cs (node lk lc lcs ll lr) r)
            = toList (node lk lc lcs ll lr) ++ List.replicate c.toNat k ++ toList r := rfl
        have h2 : toList (update_counts
              (node k c cs (extractMin (node lk lc lcs ll lr)).rest r))
            = toList (extractMin (node lk lc lcs ll lr)).rest
              ++ List.replicate c.toNat k ++ toList r := by
          rw [toList_update_counts]
          rfl
        rw [h1, h2, hsplit]
        simp [List.append_assoc]
      · -- counts drop by the removed occurrences
        have h2 : countsOf (update_counts
              (node k c cs (extractMin (node lk lc lcs ll lr)).rest r))
            = c + countsOf (extractMin (node lk lc lcs ll lr)).rest + countsOf r := rfl
        rw [h2]
        simp only [countsOf] at *
        omega
      · -- all remaining elements exceed the removed minimum
        intro x hx
        simp only [toList_update_counts, toList, List.mem_append] at hx
        rcases hx with (hx | hx) | hx
        · exact hgt x hx
        · rw [List.mem_replicate] at hx
          rw [hx.2]
          exact hl _ hmem
        · exact lt_trans (hl _ hmem) (hr x hx)
      · -- the minimum is an element of the subtree
        have h1 : toList (node k c cs (node lk lc lcs ll lr) r)
            = toList (node lk lc lcs ll lr) ++ List.replicate c.toNat k ++ toList r := rfl
        rw [h1]
        exact List.mem_append.2 (Or.inl (List.mem_append.2 (Or.inl hmem)))
      · -- the stale stored counts is bounded by the subtree total
        simp only [countsOf] at *
        omega

theorem toMS_nil : toMS nil = 0 := rfl

theorem toMS_node (k : Nat) (c cs : Int) (l r : HTree) :
    toMS (node k c cs l r) = toMS l + Multiset.replicate c.toNat k + toMS r := by
  simp only [toMS, toList, ← Multiset.coe_add, Multiset.coe_replicate]

theorem toMS_update_counts (t : HTree) : toMS (update_counts t) = toMS t := by
  simp [toMS, toList_update_counts]

/-- Everything `hist_delete`'s core guarantees when removing `c ≤ count(v)`
occurrences of a present key `v` from a valid tree: the invariant is
preserved, exactly `c` occurrences of `v` disappear, and whenever the
repair walk reports `live = false` below the root the subtree's stored
root counts is unchanged (what makes the early-termination
short-circuit of `update_counts_to_root` correct). -/
theorem delete_go_spec : ∀ (t : HTree) (v : Nat) (c cv : Int) (b : Bool),
    Valid t → 0 ≤ c → lookupCount t v = some cv → c ≤ cv →
    Valid (delete_go t v c b).1 ∧
    toMS t = Multiset.replicate c.toNat v + toMS (delete_go t v c b).1 ∧
    (b = false → (delete_go t v c b).2 = false →
      countsOf (delete_go t v c b).1 = countsOf t)
  | nil, v, c, cv, b, _, _, hlk, _ => by simp [lookupCount] at hlk
  | node k cnt cs l r, v, c, cv, b, hv, hc, hlk, hle => by
      have hv' := hv
      simp only [Valid] at hv'
      obtain ⟨hcnt, hcs, hl, hr, hvl, hvr⟩ := hv'
      by_cases h1 : v < k
      · -- delete in the left subtree
        simp only [lookupCount, if_pos h1] at hlk
        obtain ⟨ihv, ihms, ihflag⟩ := delete_go_spec l v c cv false hvl hc hlk hle
        have hmem : ∀ x ∈ toList (delete_go l v c false).1, x ∈ toList l :=
          mem_of_toMS_split l _ _ ihms
        simp only [delete_go, if_pos h1]
        cases hp : (delete_go l v c false).2 with
        | false =>
            simp only [repair, hp, Bool.false_eq_true, if_false]
            refine ⟨?_, ?_, fun _ _ => rfl⟩
            · simp only [Valid]
              refine ⟨hcnt, ?_, fun x hx => hl x (hmem x hx), hr, ihv, hvr⟩
              rw [← ihflag rfl hp] at hcs
              exact hcs
            · rw [toMS_node, toMS_node, ihms]
              abel
        | true =>
            simp only [repair, hp, if_true]
            refine ⟨?_, ?_, ?_⟩
            · simp only [update_counts, Valid]
              exact ⟨hcnt, by trivial, fun x hx => hl x (hmem x hx), hr, ihv, hvr⟩
            · rw [toMS_update_counts, toMS_node, toMS_node, ihms]
              abel
            · intro _ hflag
              simp only [counts_changed, decide_eq_false_iff_not, not_not] at hflag
              have hcu : countsOf (update_counts
                    (node k cnt cs (delete_go l v c false).1 r))
                  = cnt + countsOf (delete_go l v c false).1 + countsOf r := rfl
              rw [hcu, ← hflag]
              rfl
      · by_cases h2 : k < v
        · -- delete in the right subtree
          simp only [lookupCount, if_neg h1, if_pos h2] at hlk
          obtain ⟨ihv, ihms, ihflag⟩ := delete_go_spec r v c cv false hvr hc hlk hle
          have hmem : ∀ x ∈ toList (delete_go r v c false).1, x ∈ toList r :=
            mem_of_toMS_split r _ _ ihms
          simp only [delete_go, if_neg h1, if_pos h2]
          cases hp : (delete_go r v c false).2 with
          | false =>
              simp only [repair, hp, Bool.false_eq_true, if_false]
              refine ⟨?_, ?_, fun _ _ => rfl⟩
              · simp only [Valid]
                refine ⟨hcnt, ?_, hl, fun x hx => hr x (hmem x hx), hvl, ihv⟩
                rw [← ihflag rfl hp] at hcs
                exact hcs
              · rw [toMS_node, toMS_node, ihms]
                abel
          | true =>
              simp only [repair, hp, if_true]
              refine ⟨?_, ?_, ?_⟩
              · simp only [update_counts, Valid]
                exact ⟨hcnt, by trivial, hl, fun x hx => hr x (hmem x hx), hvl, ihv⟩
              · rw [toMS_update_counts, toMS_node, toMS_node, ihms]
                abel
              · intro _ hflag
                simp only [counts_changed, decide_eq_false_iff_not, not_not] at hflag
                have hcu : countsOf (update_counts
                      (node k cnt cs l (delete_go r v c false).1))
                    = cnt + countsOf l + countsOf (delete_go r v c false).1 := rfl
                rw [hcu, ← hflag]
                rfl
        · -- the key lives at this node
          have hvk : v = k := by omega
          subst hvk
          simp only [lookupCount, if_neg h1, if_neg h2, Option.some.injEq] at hlk
          by_cases h3 : 0 < cnt - c
          · -- the count stays positive: in-place decrement
            simp only [delete_go, if_neg h1, if_neg h2, if_pos h3, repair, if_true]
            have hsplitc : cnt.toNat = c.toNat + (cnt - c).toNat := by omega
            refine ⟨?_, ?_, ?_⟩
            · simp only [update_counts, Valid]
              exact ⟨h3, by trivial, hl, hr, hvl, hvr⟩
            · rw [toMS_update_counts, toMS_node, toMS_node, hsplitc,
                Multiset.replicate_add]
              abel
            · intro _ hflag
              simp only [counts_changed, decide_eq_false_iff_not, not_not] at hflag
              have hcu : countsOf (update_counts (node v (cnt - c) cs l r))
                  = (cnt - c) + countsOf l + countsOf r := rfl
              rw [hcu, ← hflag]
              rfl
          · -- the count reaches zero: splice the node out
            have hcc : c = cnt := by omega
            match l, hl, hvl, hcs with
            | nil, hl, hvl, hcs =>
                simp only [delete_go, if_neg h1, if_neg h2, if_neg h3]
                have hms : toMS (node v cnt cs nil r)
                    = Multiset.replicate c.toNat v + toMS r := by
                  rw [toMS_node, toMS_nil, hcc]
                  abel
                cases b with
                | true =>
                    refine ⟨?_, ?_, ?_⟩
                    · simp only [if_true]
                      rw [update_counts_of_valid r hvr]
                      exact hvr
                    · simp only [if_true]
                      rw [update_counts_of_valid r hvr]
                      exact hms
                    · intro habs
                      simp at habs
                | false =>
                    refine ⟨hvr, hms, ?_⟩
                    intro _ habs
                    simp at habs
            | node lk lc lcs ll lr, hl, hvl, hcs =>
                match r, hr, hvr, hcs with
                | nil, hr, hvr, hcs =>
                    simp only [delete_go, if_neg h1, if_neg h2, if_neg h3]
                    have hms : toMS (node v cnt cs (node lk lc lcs ll lr) nil)
                        = Multiset.replicate c.toNat v
                          + toMS (node lk lc lcs ll lr) := by
                      rw [toMS_node, toMS_nil, hcc]
                      abel
                    cases b with
                    | true =>
                        refine ⟨?_, ?_, ?_⟩
                        · simp only [if_true]
                          rw [update_counts_of_valid _ hvl]
                          exact hvl
                        · simp only [if_true]
                          rw [update_counts_of_valid _ hvl]
                          exact hms
                        · intro habs
                          simp at habs
                    | false =>
                        refine ⟨hvl, hms, ?_⟩
                        intro _ habs
                        simp at habs
                | node rk rc rcs nil rr, hr, hvr, hcs =>
                    -- the successor is the right child itself
                    have hvr' := hvr
                    simp only [Valid] at hvr'
                    obtain ⟨hrc, hrcs, -, hrr, -, hvrr⟩ := hvr'
                    have hrkmem : rk ∈ toList (node rk rc rcs nil rr) := by
                      have h1' : toList (node rk rc rcs nil rr)
                          = toList nil ++ List.replicate rc.toNat rk ++ toList rr := rfl
                      rw [h1']
                      have : rc.toNat ≠ 0 := by omega
                      simp [List.mem_replicate, this]
                    have hkrk : v < rk := hr rk hrkmem
                    have hlpos := countsOf_node_pos lk lc lcs ll lr hvl
                    simp only [delete_go, if_neg h1, if_neg h2, if_neg h3, repair,
                      if_true]
                    refine ⟨?_, ?_, ?_⟩
                    · simp only [update_counts, Valid]
                      refine ⟨hrc, by trivial, ?_, hrr, hvl, hvrr⟩
                      intro x hx
                      exact lt_trans (hl x hx) hkrk
                    · simp only [toMS_update_counts, toMS_node, toMS_nil, hcc]
                      abel
                    · intro _ hflag
                      exfalso
                      simp only [counts_changed, decide_eq_false_iff_not, not_not] at hflag
                      simp only [countsOf] at hflag hrcs hlpos
                      omega
                | node rk rc rcs (node ra rb rcc rd re) rr, hr, hvr, hcs =>
                    -- general case: splice out the in-order successor
                    obtain ⟨hlive, hvrest, hmc, hsplit, hcntr, hgt, hmemr, hbound⟩ :=
                      extractMin_spec (node rk rc rcs (node ra rb rcc rd re) rr)
                        hvr (by simp)
                    have hkm : v < (extractMin
                        (node rk rc rcs (node ra rb rcc rd re) rr)).mkey :=
                      hr _ hmemr
                    have hlpos := countsOf_node_pos lk lc lcs ll lr hvl
                    have hrsplit : toMS (node rk rc rcs (node ra rb rcc rd re) rr)
                        = Multiset.replicate
                            (extractMin (node rk rc rcs (node ra rb rcc rd re) rr)).mcount.toNat
                            (extractMin (node rk rc rcs (node ra rb rcc rd re) rr)).mkey
                          + toMS (extractMin (node rk rc rcs (node ra rb rcc rd re) rr)).rest := by
                      have := congrArg (fun x : List Nat => (x : Multiset Nat)) hsplit
                      simpa [toMS, ← Multiset.coe_add, Multiset.coe_replicate] using this
                    simp only [delete_go, if_neg h1, if_neg h2, if_neg h3, hlive,
                      repair, if_true]
                    refine ⟨?_, ?_, ?_⟩
                    · simp only [update_counts, Valid]
                      refine ⟨hmc, by trivial, ?_, hgt, hvl, hvrest⟩
                      intro x hx
                      exact lt_trans (hl x hx) hkm
                    · rw [toMS_update_counts, toMS_node, toMS_node, hrsplit, hcc,
                        toMS_node, toMS_node]
                      abel
                    · intro _ hflag
                      exfalso
                      simp only [counts_changed, decide_eq_false_iff_not, not_not] at hflag
                      simp only [countsOf] at hflag hcntr hbound hlpos
                      omega

theorem hist_get_of_lookup_none (t : HTree) (v : Nat)
    (h : lookupCount t v = none) : hist_get t v = 0 := by
  simp [hist_get, h]

theorem hist_get_of_lookup_some (t : HTree) (v : Nat) (cnt : Int)
    (h : lookupCount t v = some cnt) : hist_get t v = cnt := by
  simp [hist_get, h]

/-- Public delete (`NDEBUG` body) under its precondition: the invariant
is preserved and exactly `c` occurrences of `v` disappear. -/
theorem delete_fn_spec (t : HTree) (v : Nat) (c : Int) (hv : Valid t)
    (hc : 0 ≤ c) (hle : c ≤ hist_get t v) :
    Valid (hist_delete_fn t v c) ∧
    toMS t = Multiset.replicate c.toNat v + toMS (hist_delete_fn t v c) := by
  cases hlk : lookupCount t v with
  | none =>
      have h0 := hist_get_of_lookup_none t v hlk
      have hc0 : c = 0 := by omega
      subst hc0
      simp only [hist_delete_fn, hlk]
      exact ⟨hv, by simp⟩
  | some cv =>
      have hget := hist_get_of_lookup_some t v cv hlk
      rw [hget] at hle
      obtain ⟨h1, h2, -⟩ := delete_go_spec t v c cv true hv hc hlk hle
      simp only [hist_delete_fn, hlk]
      exact ⟨h1, h2⟩

/-- The delete wrapper succeeds exactly on the precondition-respecting
calls (and on absent keys, which the C code silently ignores). -/
theorem hist_delete_ok (t : HTree) (v : Nat) (c : Int)
    (hc : 0 ≤ c) (hle : c ≤ hist_get t v) :
    hist_delete t v c = .ok (hist_delete_fn t v c) := by
  rw [hist_delete, if_neg (by omega)]
  cases hlk : lookupCount t v with
  | none => simp [hist_delete_fn, hlk]
  | some cv =>
      have hget := hist_get_of_lookup_some t v cv hlk
      rw [hget] at hle
      simp [hist_delete_fn, hlk, if_neg (by omega : ¬cv < c)]

theorem hist_insert_ok (t : HTree) (k : Nat) (c : Int) (hc : 0 ≤ c) :
    hist_insert t k c = .ok (hist_insert_fn t k c) := by
  rw [hist_insert, if_neg (by omega)]

theorem valid_nil : Valid nil := trivial

/-- Every public operation preserves the invariant: successful calls by
the specs above, rejected calls trivially (the structure is unchanged). -/
theorem valid_execOp (t : HTree) (hv : Valid t) (op : HOp) : Valid (execOp t op) := by
  cases op with
  | ins k c =>
      by_cases hc : c < 0
      · simp only [execOp, hist_insert, if_pos hc]
        exact hv
      · rw [execOp, hist_insert_ok t k c (by omega)]
        exact valid_insert_fn t k c hv (by omega)
  | del v c =>
      by_cases hc : c < 0
      · simp only [execOp, hist_delete, if_pos hc]
        exact hv
      · rw [execOp, hist_delete]
        rw [if_neg hc]
        cases hlk : lookupCount t v with
        | none => exact hv
        | some cv =>
            by_cases hlt : cv < c
            · simp only [if_pos hlt]
              exact hv
            · simp only [if_neg hlt]
              exact (delete_go_spec t v c cv true hv (by omega) hlk (by omega)).1

theorem valid_runOps : ∀ (ops : List HOp) (t : HTree), Valid t → Valid (runOps t ops)
  | [], _, hv => hv
  | op :: rest, t, hv => valid_runOps rest (execOp t op) (valid_execOp t hv op)

/-- On valid trees emptiness is emptiness of the abstract contents. -/
theorem hist_is_empty_iff (t : HTree) (hv : Valid t) :
    (hist_is_empty t = true ↔ toMS t = 0) := by
  cases t with
  | nil => simp [hist_is_empty, toMS_nil]
  | node k c cs l r =>
      have hpos := countsOf_node_pos k c cs l r hv
      have hv' := hv
      simp only [Valid] at hv'
      simp only [countsOf] at hpos
      constructor
      · intro h
        simp only [hist_is_empty, beq_iff_eq] at h
        omega
      · intro h
        exfalso
        rw [toMS_node] at h
        have : k ∈ (0 : Multiset Nat) := by
          rw [← h]
          refine Multiset.mem_add.2 (Or.inl (Multiset.mem_add.2 (Or.inr ?_)))
          rw [Multiset.mem_replicate]
          constructor
          · omega
          · rfl
        simp at this

theorem hist_get_eq_countMS (t : HTree) (hv : Valid t) (k : Nat) :
    hist_get t k = (((toMS t).count k : Nat) : Int) := by
  rw [hist_get_eq_count t hv k]
  simp [toMS]

/-- Pointwise effect of insert on `hist_get`. -/
theorem hist_get_insert_fn (t : HTree) (k : Nat) (c : Int) (hv : Valid t)
    (hc : 0 ≤ c) (j : Nat) :
    hist_get (hist_insert_fn t k c) j = hist_get t j + (if j = k then c else 0) := by
  rw [hist_get_eq_countMS _ (valid_insert_fn t k c hv hc) j,
    toMS_insert_fn t k c hv hc, Multiset.count_add, Multiset.count_replicate,
    hist_get_eq_countMS t hv j]
  by_cases hj : j = k
  · rw [if_pos hj.symm, if_pos hj]
    push_cast
    omega
  · rw [if_neg (fun h => hj h.symm), if_neg hj]
    push_cast
    omega

/-- Pointwise effect of delete on `hist_get`. -/
theorem hist_get_delete_fn (t : HTree) (v : Nat) (c : Int) (hv : Valid t)
    (hc : 0 ≤ c) (hle : c ≤ hist_get t v) (j : Nat) :
    hist_get (hist_delete_fn t v c) j = hist_get t j - (if j = v then c else 0) := by
  obtain ⟨hv2, hms⟩ := delete_fn_spec t v c hv hc hle
  have hcnt := congrArg (Multiset.count j) hms
  rw [Multiset.count_add, Multiset.count_replicate] at hcnt
  rw [hist_get_eq_countMS _ hv2 j, hist_get_eq_countMS t hv j, hcnt]
  have hlev := hle
  rw [hist_get_eq_countMS t hv v] at hlev
  by_cases hj : j = v
  · subst hj
    rw [if_pos rfl, if_pos rfl] at *
    have hcc := congrArg (Multiset.count j) hms
    push_cast
    omega
  · rw [if_neg (fun h => hj h.symm), if_neg hj]
    push_cast
    omega

theorem execOp_ins (t : HTree) (k : Nat) (c : Int) (hc : 0 ≤ c) :
    execOp t (.ins k c) = hist_insert_fn t k c := by
  rw [execOp, hist_insert_ok t k c hc]

theorem execOp_del (t : HTree) (v : Nat) (c : Int)
    (hc : 0 ≤ c) (hle : c ≤ hist_get t v) :
    execOp t (.del v c) = hist_delete_fn t v c := by
  rw [execOp, hist_delete_ok t v c hc hle]

end HTree

open HTree

/-- Evolution of `hist_get k` along a precondition-respecting trace of
single-key operations. -/
theorem run_kOps_get (k : Nat) : ∀ (l : List (Bool × Int)) (t : HTree), Valid t →
    opsOKb t (kOps k l) = true →
    hist_get (runOps t (kOps k l)) k = hist_get t k + insSum l - delSum l
  | [], t, _, _ => by
      simp [kOps, runOps, insSum, delSum]
  | (true, c) :: rest, t, hv, hok => by
      simp only [kOps, List.map_cons, if_pos, opsOKb, Bool.and_eq_true,
        decide_eq_true_eq] at hok
      obtain ⟨hc, hrest⟩ := hok
      rw [execOp_ins t k c hc] at hrest
      have hv1 := valid_insert_fn t k c hv hc
      have ih := run_kOps_get k rest (hist_insert_fn t k c) hv1 hrest
      simp only [kOps, List.map_cons, if_pos] at ih ⊢
      rw [runOps, execOp_ins t k c hc, ih,
        hist_get_insert_fn t k c hv hc k, if_pos rfl, insSum, delSum]
      ring
  | (false, c) :: rest, t, hv, hok => by
      simp only [kOps, List.map_cons, if_neg Bool.false_ne_true, opsOKb,
        Bool.and_eq_true, decide_eq_true_eq] at hok
      obtain ⟨⟨hc, hle⟩, hrest⟩ := hok
      rw [execOp_del t k c hc hle] at hrest
      have hv1 := (delete_fn_spec t k c hv hc hle).1
      have ih := run_kOps_get k rest (hist_delete_fn t k c) hv1 hrest
      simp only [kOps, List.map_cons, if_neg Bool.false_ne_true] at ih ⊢
      rw [runOps, execOp_del t k c hc hle, ih,
        hist_get_delete_fn t k c hv hc hle k, if_pos rfl, insSum, delSum]
      ring

/-! ## Filter-level lemmas -/

/-- Folding unit insertions over a list adds the list's contents. -/
theorem foldl_insert_spec : ∀ (L : List Nat) (h : HTree), Valid h →
    Valid (L.foldl (fun a x => hist_insert_fn a x 1) h) ∧
    toMS (L.foldl (fun a x => hist_insert_fn a x 1) h) = ↑L + toMS h
  | [], h, hv => ⟨hv, by simp⟩
  | x :: L, h, hv => by
      have hv1 := valid_insert_fn h x 1 hv (by norm_num)
      have hms1 := toMS_insert_fn h x 1 hv (by norm_num)
      rw [Int.toNat_one, Multiset.replicate_one] at hms1
      obtain ⟨ihv, ihms⟩ := foldl_insert_spec L (hist_insert_fn h x 1) hv1
      refine ⟨ihv, ?_⟩
      show toMS (L.foldl _ (hist_insert_fn h x 1)) = _
      rw [ihms, hms1, ← Multiset.cons_coe, ← Multiset.singleton_add]
      abel

theorem foldl_flatMap_insert (g : Int → List Nat) :
    ∀ (L : List Int) (h : HTree),
    (L.flatMap g).foldl (fun a x => hist_insert_fn a x 1) h
      = L.foldl (fun a di => (g di).foldl (fun a x => hist_insert_fn a x 1) a) h
  | [], _ => rfl
  | d :: L, h => by
      rw [List.flatMap_cons, List.foldl_append]
      exact foldl_flatMap_insert g L _

/-- `fill_histogram` inserts exactly the window contents, in order. -/
theorem fill_histogram_eq (hist : HTree) (inb : Int → Nat) (i j : Int)
    (radius width height : Nat) :
    fill_histogram hist inb i j radius width height
      = (window inb i j radius width height).foldl
          (fun a x => hist_insert_fn a x 1) hist := by
  rw [window, foldl_flatMap_insert]
  have hfun : (fun (a : HTree) (di : Int) =>
        ((offs radius).map (fun dj => inb (IDX (i + di) (j + dj) height width))).foldl
          (fun a x => hist_insert_fn a x 1) a)
      = fun (a : HTree) (di : Int) =>
        (offs radius).foldl
          (fun h dj => hist_insert_fn h (inb (IDX (i + di) (j + dj) height width)) 1) a :=
    funext fun a => funext fun di => List.foldl_map _ _ _ _
  rw [hfun]
  rfl

theorem fill_spec (h : HTree) (inb : Int → Nat) (i j : Int)
    (r w hgt : Nat) (hv : Valid h) :
    Valid (fill_histogram h inb i j r w hgt) ∧
    toMS (fill_histogram h inb i j r w hgt)
      = ↑(window inb i j r w hgt) + toMS h := by
  rw [fill_histogram_eq]
  exact foldl_insert_spec _ h hv

/-- Appending the next offset on the right equals prepending `-r` and
shifting all offsets by one. -/
theorem offs_succ (r : Nat) :
    offs r ++ [(r : Int) + 1] = (-(r : Int)) :: (offs r).map (· + 1) := by
  have hg : (fun t : Nat => (t : Int) - (r : Int)) (2 * r + 1) = (r : Int) + 1 := by
    show ((2 * r + 1 : Nat) : Int) - (r : Int) = (r : Int) + 1
    push_cast
    ring
  calc offs r ++ [(r : Int) + 1]
      = (List.range (2 * r + 1)).map (fun t : Nat => (t : Int) - (r : Int))
        ++ [(fun t : Nat => (t : Int) - (r : Int)) (2 * r + 1)] := by
        rw [hg, offs]
    _ = (List.range (2 * r + 1) ++ [2 * r + 1]).map
          (fun t : Nat => (t : Int) - (r : Int)) := by
        rw [List.map_append, List.map_singleton]
    _ = (List.range (2 * r + 2)).map (fun t : Nat => (t : Int) - (r : Int)) := by
        rw [← List.range_succ]
    _ = (0 :: (List.range (2 * r + 1)).map Nat.succ).map
          (fun t : Nat => (t : Int) - (r : Int)) := by
        rw [← List.range_succ_eq_map]
    _ = (-(r : Int)) :: (offs r).map (· + 1) := by
        rw [List.map_cons, List.map_map, offs, List.map_map]
        congr 1
        · show ((0 : Nat) : Int) - (r : Int) = -(r : Int)
          push_cast
          ring
        · apply List.map_congr_left
          intro a _
          show ((a + 1 : Nat) : Int) - (r : Int) = ((a : Int) - (r : Int)) + 1
          push_cast
          ring

/-- Sliding a one-row window right: the old row plus the entering
sample is, as a list, the leaving sample plus the new row. -/
theorem row_shift (f : Int → Nat) (j : Int) (r : Nat) :
    (offs r).map (fun dj => f (j + dj)) ++ [f (j + r + 1)]
      = f (j - r) :: (offs r).map (fun dj => f (j + 1 + dj)) := by
  have h1 : (offs r).map (fun dj => f (j + dj)) ++ [f (j + r + 1)]
      = ((offs r) ++ [(r : Int) + 1]).map (fun dj => f (j + dj)) := by
    rw [List.map_append, List.map_singleton]
    have : j + ((r : Int) + 1) = j + r + 1 := by ring
    rw [this]
  rw [h1, offs_succ, List.map_cons, List.map_map]
  congr 1
  apply List.map_congr_left
  intro a _
  show f (j + (a + 1)) = f (j + 1 + a)
  have harg : j + (a + 1) = j + 1 + a := by ring
  exact congrArg f harg

/-- The generalized invariant of the shift loop: if the histogram holds
`M` plus all samples about to leave, after the loop it holds `M` plus
all the samples that entered (and every unit delete finds its key). -/
theorem shift_fold_spec (inb : Int → Nat) (i j : Int) (r w hgt : Nat) :
    ∀ (D : List Int) (h : HTree) (M : Multiset Nat), Valid h →
    toMS h = M + ↑(D.map (fun di => inb (IDX (i + di) (j - (r : Int)) hgt w))) →
    Valid (D.foldl (fun h di =>
        hist_insert_fn
          (hist_delete_fn h (inb (IDX (i + di) (j - (r : Int)) hgt w)) 1)
          (inb (IDX (i + di) (j + (r : Int) + 1) hgt w)) 1) h) ∧
    toMS (D.foldl (fun h di =>
        hist_insert_fn
          (hist_delete_fn h (inb (IDX (i + di) (j - (r : Int)) hgt w)) 1)
          (inb (IDX (i + di) (j + (r : Int) + 1) hgt w)) 1) h)
      = M + ↑(D.map (fun di => inb (IDX (i + di) (j + (r : Int) + 1) hgt w)))
  | [], h, M, hv, hms => ⟨hv, by simpa using hms⟩
  | d :: D, h, M, hv, hms => by
      have hmem : inb (IDX (i + d) (j - (r : Int)) hgt w) ∈ toMS h := by
        rw [hms, List.map_cons, ← Multiset.cons_coe]
        exact Multiset.mem_add.2 (Or.inr (Multiset.mem_cons_self _ _))
      have hle : (1 : Int) ≤ hist_get h (inb (IDX (i + d) (j - (r : Int)) hgt w)) := by
        rw [hist_get_eq_countMS h hv]
        exact_mod_cast Multiset.one_le_count_iff_mem.2 hmem
      obtain ⟨hv1, hms1⟩ := delete_fn_spec h _ 1 hv (by norm_num) hle
      rw [Int.toNat_one, Multiset.replicate_one, Multiset.singleton_add] at hms1
      have hms1' : toMS (hist_delete_fn h (inb (IDX (i + d) (j - (r : Int)) hgt w)) 1)
          = M + ↑(D.map (fun di => inb (IDX (i + di) (j - (r : Int)) hgt w))) := by
        apply Multiset.ext.2
        intro a
        have h0 := congrArg (Multiset.count a) hms1
        have h0' := congrArg (Multiset.count a) hms
        rw [List.map_cons, ← Multiset.cons_coe] at h0'
        simp only [Multiset.count_add, Multiset.count_cons] at h0 h0' ⊢
        omega
      have hv2 := valid_insert_fn _ (inb (IDX (i + d) (j + (r : Int) + 1) hgt w)) 1
        hv1 (by norm_num)
      have hms2 := toMS_insert_fn _ (inb (IDX (i + d) (j + (r : Int) + 1) hgt w)) 1
        hv1 (by norm_num)
      rw [Int.toNat_one, Multiset.replicate_one, Multiset.singleton_add, hms1'] at hms2
      have hpre : toMS (hist_insert_fn
            (hist_delete_fn h (inb (IDX (i + d) (j - (r : Int)) hgt w)) 1)
            (inb (IDX (i + d) (j + (r : Int) + 1) hgt w)) 1)
          = (inb (IDX (i + d) (j + (r : Int) + 1) hgt w) ::ₘ M)
            + ↑(D.map (fun di => inb (IDX (i + di) (j - (r : Int)) hgt w))) := by
        rw [hms2, Multiset.cons_add]
      obtain ⟨ihv, ihms⟩ := shift_fold_spec inb i j r w hgt D _ _ hv2 hpre
      refine ⟨ihv, ?_⟩
      show toMS (D.foldl _ _) = _
      apply Multiset.ext.2
      intro a
      have h0 := congrArg (Multiset.count a) ihms
      simp only [List.map_cons, ← Multiset.cons_coe, Multiset.count_add,
        Multiset.count_cons] at h0 ⊢
      omega

/-- Column-shift identity of the window contents: old window plus the
entering column equals the leaving column plus the new window. -/
theorem window_shift_gen (inb : Int → Nat) (i j : Int) (r w hgt : Nat) :
    ∀ D : List Int,
    (↑(D.flatMap (fun di => (offs r).map
        (fun dj => inb (IDX (i + di) (j + dj) hgt w)))) : Multiset Nat)
      + ↑(D.map (fun di => inb (IDX (i + di) (j + (r : Int) + 1) hgt w)))
    = ↑(D.map (fun di => inb (IDX (i + di) (j - (r : Int)) hgt w)))
      + ↑(D.flatMap (fun di => (offs r).map
          (fun dj => inb (IDX (i + di) (j + 1 + dj) hgt w))))
  | [] => by simp
  | d :: D => by
      have ih := window_shift_gen inb i j r w hgt D
      have hrow := row_shift (fun x => inb (IDX (i + d) x hgt w)) j r
      simp only [] at hrow
      have hrowMS := congrArg (fun l : List Nat => (l : Multiset Nat)) hrow
      apply Multiset.ext.2
      intro a
      have h1 := congrArg (Multiset.count a) hrowMS
      have h2 := congrArg (Multiset.count a) ih
      simp only [List.flatMap_cons, List.map_cons, ← Multiset.coe_add,
        ← Multiset.cons_coe, Multiset.coe_nil, Multiset.count_zero,
        Multiset.count_add, Multiset.count_cons] at h1 h2 ⊢
      omega

/-- Each window row contains the sample its shift is about to delete. -/
theorem lefts_le_window (inb : Int → Nat) (i j : Int) (r w hgt : Nat) :
    ∀ D : List Int,
    (↑(D.map (fun di => inb (IDX (i + di) (j - (r : Int)) hgt w))) : Multiset Nat)
      ≤ ↑(D.flatMap (fun di => (offs r).map
          (fun dj => inb (IDX (i + di) (j + dj) hgt w))))
  | [] => by simp
  | d :: D => by
      have ih := lefts_le_window inb i j r w hgt D
      have hmem : inb (IDX (i + d) (j - (r : Int)) hgt w)
          ∈ (offs r).map (fun dj => inb (IDX (i + d) (j + dj) hgt w)) := by
        refine List.mem_map.2 ⟨-(r : Int), ?_, ?_⟩
        · rw [offs]
          refine List.mem_map.2 ⟨0, ?_, ?_⟩
          · rw [List.mem_range]
            omega
          · show ((0 : Nat) : Int) - (r : Int) = -(r : Int)
            push_cast
            ring
        · show inb (IDX (i + d) (j + -(r : Int)) hgt w)
            = inb (IDX (i + d) (j - (r : Int)) hgt w)
          have harg : j + -(r : Int) = j - (r : Int) := by ring
          rw [harg]
      simp only [List.flatMap_cons, List.map_cons, ← Multiset.coe_add,
        ← Multiset.cons_coe]
      rw [← Multiset.singleton_add]
      exact add_le_add (Multiset.singleton_le.2 (Multiset.mem_coe.2 hmem)) ih

/-- `shift_histogram` turns the window-at-`j` histogram into the
window-at-`j+1` histogram, preserving the invariant. -/
theorem shift_spec (h : HTree) (inb : Int → Nat) (i j : Int) (r w hgt : Nat)
    (hv : Valid h) (hms : toMS h = ↑(window inb i j r w hgt)) :
    Valid (shift_histogram h inb i j r w hgt) ∧
    toMS (shift_histogram h inb i j r w hgt)
      = ↑(window inb i (j + 1) r w hgt) := by
  rw [window] at hms
  have hle := lefts_le_window inb i j r w hgt (offs r)
  have hstart : toMS h
      = (toMS h - ↑((offs r).map (fun di => inb (IDX (i + di) (j - (r : Int)) hgt w))))
        + ↑((offs r).map (fun di => inb (IDX (i + di) (j - (r : Int)) hgt w))) := by
    rw [tsub_add_cancel_of_le]
    rw [hms]
    exact hle
  obtain ⟨hvf, hmsf⟩ := shift_fold_spec inb i j r w hgt (offs r) h _ hv hstart
  rw [shift_histogram]
  refine ⟨hvf, ?_⟩
  rw [hmsf, window]
  have hws := window_shift_gen inb i j r w hgt (offs r)
  apply Multiset.ext.2
  intro a
  have h1 := congrArg (Multiset.count a) hws
  have h2 := Multiset.count_le_of_le a hle
  have h3 := congrArg (Multiset.count a) hms
  simp only [Multiset.count_add, Multiset.count_sub] at h1 h2 h3 ⊢
  omega

theorem window_length (inb : Int → Nat) (i j : Int) (r w hgt : Nat) :
    (window inb i j r w hgt).length = (2 * r + 1) * (2 * r + 1) := by
  rw [window, List.length_flatMap]
  have h1 : (List.length ∘ fun di : Int => (offs r).map
      (fun dj => inb (IDX (i + di) (j + dj) hgt w))) = fun _ : Int => 2 * r + 1 := by
    funext di
    show ((offs r).map _).length = 2 * r + 1
    rw [List.length_map, offs, List.length_map, List.length_range]
  rw [h1, show (fun _ : Int => 2 * r + 1) = Function.const Int (2 * r + 1) from rfl,
    List.map_const, List.sum_replicate, smul_eq_mul, offs, List.length_map,
    List.length_range]

/-- A histogram holding exactly a window's contents reports the
window's median (sorted, upper-middle tie-break). -/
theorem median_fn_window (h : HTree) (inb : Int → Nat) (i j : Int) (r w hgt : Nat)
    (hv : Valid h) (hms : toMS h = ↑(window inb i j r w hgt)) :
    hist_median_fn h = windowMedian inb i j r w hgt := by
  have hperm : List.Perm (toList h) (window inb i j r w hgt) :=
    Multiset.coe_eq_coe.1 hms
  have hlen : (toList h).length = (window inb i j r w hgt).length := hperm.length_eq
  have hwpos : 0 < (window inb i j r w hgt).length := by
    rw [window_length]
    exact Nat.mul_pos (by omega) (by omega)
  have hne : h ≠ HTree.nil := by
    intro hnil
    rw [hnil] at hlen
    simp only [toList, List.length_nil] at hlen
    omega
  have hspec := hist_median_spec h hv hne
  have hsorteq : (window inb i j r w hgt).insertionSort (· ≤ ·) = toList h :=
    List.eq_of_perm_of_sorted ((List.perm_insertionSort _ _).trans hperm.symm)
      (List.sorted_insertionSort _ _) (sorted_toList h hv)
  simp only [hist_median_fn, hspec]
  rw [windowMedian, hsorteq, ← hlen]

/-- The per-row loop emits exactly the window medians of the columns it
visits, provided the histogram starts as the window at the first
visited column. -/
theorem row_loop_spec (inb : Int → Nat) (i : Int) (r w hgt : Nat) :
    ∀ (n : Nat) (j : Int) (h : HTree), Valid h →
    toMS h = ↑(window inb i j r w hgt) →
    (row_loop inb i r w hgt n j h).1
      = (List.range n).map (fun t : Nat => windowMedian inb i (j + (t : Int)) r w hgt)
  | 0, _, _, _, _ => rfl
  | Nat.succ n, j, h, hv, hms => by
      have hhead := median_fn_window h inb i j r w hgt hv hms
      by_cases hn : n = 0
      · subst hn
        simp [row_loop, hhead, List.range_succ, List.range_zero]
      · obtain ⟨hvs, hmss⟩ := shift_spec h inb i j r w hgt hv hms
        have ih := row_loop_spec inb i r w hgt n (j + 1)
          (shift_histogram h inb i j r w hgt) hvs hmss
        simp only [row_loop, if_neg hn]
        rw [hhead, ih, List.range_succ_eq_map, List.map_cons, List.map_map]
        congr 1
        · simp
        · apply List.map_congr_left
          intro a _
          show windowMedian inb i (j + 1 + (a : Int)) r w hgt
            = windowMedian inb i (j + ((a.succ : Nat) : Int)) r w hgt
          have harg : j + ((a.succ : Nat) : Int) = j + 1 + (a : Int) := by
            push_cast
            ring
          rw [harg]

/-- One full row of the incremental filter equals the per-column window
medians. -/
theorem filter_row_spec (inb : Int → Nat) (i : Int) (r w hgt : Nat) :
    filter_row inb i r w hgt
      = (List.range w).map (fun t : Nat => windowMedian inb i (t : Int) r w hgt) := by
  obtain ⟨hvf, hmsf⟩ := fill_spec HTree.nil inb i 0 r w hgt valid_nil
  rw [toMS_nil, add_zero] at hmsf
  rw [filter_row, row_loop_spec inb i r w hgt w 0 _ hvf hmsf]
  apply List.map_congr_left
  intro a _
  show windowMedian inb i (0 + (a : Int)) r w hgt
    = windowMedian inb i (a : Int) r w hgt
  rw [zero_add]

/-- A from-scratch histogram of the window at `(i, j)` reports the same
median. -/
theorem scratch_median (inb : Int → Nat) (i j : Int) (r w hgt : Nat) :
    hist_median_fn (fill_histogram HTree.nil inb i j r w hgt)
      = windowMedian inb i j r w hgt := by
  obtain ⟨hvf, hmsf⟩ := fill_spec HTree.nil inb i j r w hgt valid_nil
  rw [toMS_nil, add_zero] at hmsf
  exact median_fn_window _ inb i j r w hgt hvf hmsf

/-- A worker's output on its assigned rows is the pure per-row
function, whatever histogram state it starts from or carries between
rows (the clear-at-row-start discards it). -/
theorem worker_run_eq (inb : Int → Nat) (r w hgt : Nat) :
    ∀ (rows : List Nat) (h : HTree),
    worker_run inb r w hgt rows h
      = rows.map (fun a : Nat => filter_row inb (a : Int) r w hgt)
  | [], _ => rfl
  | i :: rest, h => by
      simp only [worker_run, List.map_cons]
      rw [worker_run_eq inb r w hgt rest]
      rfl

theorem getD_map_range {α : Type} (f : Nat → α) (d : α) :
    ∀ (n i : Nat), i < n → ((List.range n).map f).getD i d = f i
  | 0, i, h => absurd h (by omega)
  | n + 1, i, h => by
      rw [List.range_succ, List.map_append, List.map_singleton]
      by_cases hi : i < n
      · rw [List.getD_append _ _ _ _ (by rw [List.length_map, List.length_range]; omega)]
        exact getD_map_range f d n i hi
      · have hin : i = n := by omega
        subst hin
        rw [List.getD_append_right _ _ _ _
          (by rw [List.length_map, List.length_range])]
        simp [List.length_map, List.length_range]

/-! ## Claim theorems -/

/-- C1.  For every valid non-empty histogram, `median()` returns the
value at 0-indexed position `totalCount / 2` (integer division) of the
fully sorted, multiplicity-expanded sequence of all stored occurrences
(each key repeated `count` times); for even totals this is the upper of
the two middle values. -/
theorem claim_C1 (H : HTree) (hv : Valid H) (hne : H ≠ HTree.nil) :
    hist_median H
      = .ok (((toList H).insertionSort (· ≤ ·)).getD ((countsOf H).toNat / 2) 0) := by
  have hsort : (toList H).insertionSort (· ≤ ·) = toList H :=
    List.eq_of_perm_of_sorted (List.perm_insertionSort _ _)
      (List.sorted_insertionSort _ _) (sorted_toList H hv)
  have hlen : (countsOf H).toNat = (toList H).length := by
    rw [countsOf_eq_length H hv]
    simp
  rw [hsort, hlen]
  exact hist_median_spec H hv hne

/-- C1 witness: insert(5,1), insert(2,1), insert(8,1) gives median 5;
additionally insert(1,1) still gives median 5 (upper middle of
[1,2,5,8]). -/
theorem claim_C1_witness :
    hist_median (hist_insert_fn (hist_insert_fn (hist_insert_fn HTree.nil 5 1) 2 1) 8 1)
      = .ok 5 ∧
    hist_median (hist_insert_fn (hist_insert_fn (hist_insert_fn
        (hist_insert_fn HTree.nil 5 1) 2 1) 8 1) 1 1)
      = .ok 5 :=
  ⟨(claim_C1 _ (by decide) (by decide)).trans rfl,
   (claim_C1 _ (by decide) (by decide)).trans rfl⟩

/-- C2.  After every sequence of public inserts and deletes starting
from the empty histogram (deletes splicing out nodes with zero, one or
two children included), every node satisfies
`subtreeCount = count + subtreeCount(left) + subtreeCount(right)` and
the BST ordering relative to its parent (left keys `≤ key`, right keys
`> key`) — even though the bottom-up repair in the model, like the C
code, stops propagating as soon as a node's recomputed subtree count
equals its stored value. -/
theorem claim_C2 (ops : List HOp) :
    WF (runOps HTree.nil ops) ∧ Valid (runOps HTree.nil ops) :=
  ⟨WF_of_valid _ (valid_runOps ops HTree.nil valid_nil),
   valid_runOps ops HTree.nil valid_nil⟩

/-- C5.  Starting from the empty histogram, after any
precondition-respecting sequence of `insert(k, ·)` / `delete(k, ·)`,
`get(k)` equals inserted minus deleted multiplicities, is never
negative, and `insert(k, 0)` is a no-op (and `get` never fails: it is a
total function). -/
theorem claim_C5 (k : Nat) (l : List (Bool × Int))
    (hok : opsOKb HTree.nil (kOps k l) = true) :
    hist_get (runOps HTree.nil (kOps k l)) k = insSum l - delSum l ∧
    0 ≤ hist_get (runOps HTree.nil (kOps k l)) k ∧
    ∀ (t : HTree) (k' : Nat), hist_insert t k' 0 = .ok t := by
  have h := run_kOps_get k l HTree.nil valid_nil hok
  have hnil : hist_get HTree.nil k = 0 := rfl
  refine ⟨by rw [h, hnil]; ring, ?_, ?_⟩
  · exact hist_get_nonneg _ (valid_runOps _ _ valid_nil) k
  · intro t k'
    rw [hist_insert, if_neg (by norm_num), hist_insert_fn, if_neg (by norm_num)]

/-- C5 witness: insert(7,2) then delete(7,1) leaves `get(7) = 1`. -/
theorem claim_C5_witness :
    hist_get (runOps HTree.nil (kOps 7 [(true, 2), (false, 1)])) 7
      = insSum [(true, 2), (false, 1)] - delSum [(true, 2), (false, 1)] :=
  (claim_C5 7 [(true, 2), (false, 1)] (by decide)).1

/-- C6.  Inserting `(k, c)` and then deleting `(k, c)` (both succeed,
no error) restores every `get` observation and the emptiness
observation of a valid histogram. -/
theorem claim_C6 (H : HTree) (k : Nat) (c : Int) (hv : Valid H) (hc : 0 ≤ c) :
    hist_insert H k c = .ok (hist_insert_fn H k c) ∧
    hist_delete (hist_insert_fn H k c) k c
      = .ok (hist_delete_fn (hist_insert_fn H k c) k c) ∧
    (∀ j : Nat, hist_get (hist_delete_fn (hist_insert_fn H k c) k c) j
      = hist_get H j) ∧
    hist_is_empty (hist_delete_fn (hist_insert_fn H k c) k c) = hist_is_empty H := by
  have hv1 := valid_insert_fn H k c hv hc
  have hms1 := toMS_insert_fn H k c hv hc
  have hget1 : c ≤ hist_get (hist_insert_fn H k c) k := by
    rw [hist_get_insert_fn H k c hv hc k, if_pos rfl]
    have := hist_get_nonneg H hv k
    omega
  obtain ⟨hv2, hms2⟩ := delete_fn_spec (hist_insert_fn H k c) k c hv1 hc hget1
  have hms : toMS (hist_delete_fn (hist_insert_fn H k c) k c) = toMS H := by
    rw [hms1] at hms2
    exact (add_left_cancel hms2).symm
  refine ⟨hist_insert_ok H k c hc, hist_delete_ok _ k c hc hget1, ?_, ?_⟩
  · intro j
    exact hist_get_congr _ _ hv2 hv hms j
  · rw [Bool.eq_iff_iff, hist_is_empty_iff _ hv2, hist_is_empty_iff H hv, hms]

/-- C6 witness at a concrete histogram. -/
theorem claim_C6_witness :
    (∀ j : Nat, hist_get (hist_delete_fn (hist_insert_fn
        (hist_insert_fn HTree.nil 3 2) 9 4) 9 4) j
      = hist_get (hist_insert_fn HTree.nil 3 2) j) ∧
    hist_is_empty (hist_delete_fn (hist_insert_fn
        (hist_insert_fn HTree.nil 3 2) 9 4) 9 4)
      = hist_is_empty (hist_insert_fn HTree.nil 3 2) :=
  ⟨(claim_C6 (hist_insert_fn HTree.nil 3 2) 9 4 (by decide) (by decide)).2.2.1,
   (claim_C6 (hist_insert_fn HTree.nil 3 2) 9 4 (by decide) (by decide)).2.2.2⟩

/-- C7 counterexample: deleting one occurrence of a key that is not
present (the empty histogram holds fewer than 1 occurrence of key 5) is
silently ignored — no `Underflow` is signalled, contradicting the claim
that every precondition violation is signalled. -/
theorem claim_C7_counterexample :
    hist_get HTree.nil 5 < 1 ∧ hist_delete HTree.nil 5 1 = .ok HTree.nil := by
  constructor
  · decide
  · rfl

/-- C7 (amended).  `delete(key, c)` signals `InvalidArgument` for
`c < 0` and signals `Underflow` exactly when `key` is present with
fewer than `c` occurrences; when `key` is absent the call is silently
ignored (no signal), and likewise `merge-subtract` signals `Underflow`
for a present key with insufficient count but silently skips keys
absent from the receiver. -/
theorem claim_C7 (H : HTree) (v : Nat) (c : Int) :
    (c < 0 → hist_delete H v c = .error .invalidArgument) ∧
    (0 ≤ c → ((hist_delete H v c = .error .underflow)
        ↔ ∃ cnt, lookupCount H v = some cnt ∧ cnt < c)) ∧
    (0 ≤ c → lookupCount H v = none → hist_delete H v c = .ok H) ∧
    hist_sub (HTree.node 5 1 1 HTree.nil HTree.nil)
        (HTree.node 5 2 2 HTree.nil HTree.nil) = .error .underflow ∧
    hist_sub HTree.nil (HTree.node 5 2 2 HTree.nil HTree.nil) = .ok HTree.nil := by
  refine ⟨?_, ?_, ?_, rfl, rfl⟩
  · intro h
    rw [hist_delete, if_pos h]
  · intro hc
    rw [hist_delete, if_neg (by omega)]
    cases hlk : lookupCount H v with
    | none => simp
    | some cnt =>
        by_cases hlt : cnt < c
        · simp [if_pos hlt, hlt]
        · simp [if_neg hlt, hlt]
  · intro hc hnone
    rw [hist_delete, if_neg (by omega)]
    simp [hnone]

/-- C7 witness: a present key with too few occurrences does signal
`Underflow`. -/
theorem claim_C7_witness :
    hist_delete (HTree.node 5 1 1 HTree.nil HTree.nil) 5 2 = .error .underflow :=
  ((claim_C7 (HTree.node 5 1 1 HTree.nil HTree.nil) 5 2).2.1 (by decide)).mpr
    ⟨1, rfl, by decide⟩

/-- C8.  `median()` on an empty valid histogram signals
`EmptyStructure`. -/
theorem claim_C8 (H : HTree) (hv : Valid H) (he : hist_is_empty H = true) :
    hist_median H = .error .emptyStructure := by
  cases H with
  | nil => rfl
  | node k c cs l r =>
      exfalso
      have hpos := countsOf_node_pos k c cs l r hv
      simp only [hist_is_empty, beq_iff_eq] at he
      simp only [countsOf] at hpos
      omega

/-- C8 witness: the empty histogram. -/
theorem claim_C8_witness : hist_median HTree.nil = .error .emptyStructure :=
  claim_C8 HTree.nil valid_nil rfl

/-- C10.  Insert and delete are local to their key: with the
operations' preconditions, `get(j)` is unchanged for every `j ≠ k`. -/
theorem claim_C10 (H : HTree) (k j : Nat) (c : Int) (hv : Valid H) (hc : 0 ≤ c)
    (hne : j ≠ k) :
    hist_get (hist_insert_fn H k c) j = hist_get H j ∧
    (c ≤ hist_get H k → hist_get (hist_delete_fn H k c) j = hist_get H j) := by
  constructor
  · rw [hist_get_insert_fn H k c hv hc j, if_neg hne]
    ring
  · intro hle
    rw [hist_get_delete_fn H k c hv hc hle j, if_neg hne]
    ring

/-- C10 witness at a concrete histogram. -/
theorem claim_C10_witness :
    hist_get (hist_insert_fn (hist_insert_fn HTree.nil 3 2) 5 1) 3
      = hist_get (hist_insert_fn HTree.nil 3 2) 3 :=
  (claim_C10 (hist_insert_fn HTree.nil 3 2) 5 3 1 (by decide) (by decide)
    (by decide)).1

/-- C3.  For every in-range pixel, the row filter writes the median
(upper-middle tie-break) of the `(2·radius+1)×(2·radius+1)` window of
input samples centered there, with out-of-bounds window coordinates
clamped to the nearest valid index (border replication). -/
theorem claim_C3 (inb : Int → Nat) (width height radius i j : Nat)
    (hi : i < height) (hj : j < width) :
    ((median_filter_2D_sparse_byrow inb width height radius).getD i []).getD j 0
      = windowMedian inb (i : Int) (j : Int) radius width height := by
  rw [median_filter_2D_sparse_byrow, worker_run_eq,
    getD_map_range _ _ height i hi, filter_row_spec,
    getD_map_range _ _ width j hj]

/-- C3 witness: the 5×5 buffer holding 0..24, radius 1, yields 12 at
pixel (2,2) — the median of the 3×3 neighborhood 6,7,8,11,12,13,16,17,18. -/
theorem claim_C3_witness :
    ((median_filter_2D_sparse_byrow inbC3 5 5 1).getD 2 []).getD 2 0 = 12 ∧
    windowMedian inbC3 2 2 1 5 5 = 12 :=
  ⟨(claim_C3 inbC3 5 5 1 2 2 (by decide) (by decide)).trans (by decide),
   by decide⟩

/-- C4.  For every row, radius and input buffer, the incremental
(delete/insert sliding) median sequence of a row equals the sequence
obtained by rebuilding a fresh histogram from scratch at every
column. -/
theorem claim_C4 (inb : Int → Nat) (i : Int) (radius width height : Nat) :
    filter_row inb i radius width height
      = (List.range width).map (fun j : Nat =>
          hist_median_fn
            (fill_histogram HTree.nil inb i (j : Int) radius width height)) := by
  rw [filter_row_spec]
  apply List.map_congr_left
  intro a _
  exact (scratch_median inb i (a : Int) radius width height).symm

/-- C9.  The filter output is deterministic and independent of how rows
are assigned to workers and of carried per-worker state: any worker
processing any row list from any starting histogram produces exactly
the pure per-row outputs, so two runs coincide and the full filter is
the map of the per-row function over the rows. -/
theorem claim_C9 (inb : Int → Nat) (radius width height : Nat)
    (rows : List Nat) (h h' : HTree) :
    worker_run inb radius width height rows h
      = rows.map (fun a : Nat => filter_row inb (a : Int) radius width height) ∧
    worker_run inb radius width height rows h
      = worker_run inb radius width height rows h' ∧
    median_filter_2D_sparse_byrow inb width height radius
      = (List.range height).map
          (fun a : Nat => filter_row inb (a : Int) radius width height) := by
  refine ⟨worker_run_eq inb radius width height rows h, ?_, ?_⟩
  · rw [worker_run_eq, worker_run_eq]
  · rw [median_filter_2D_sparse_byrow, worker_run_eq]

end MedianFilterPDP
